import Mathlib

/-!
# Verification of stonyx-cron against its specification

Shallow embedding of the two core source files:

* `src/min-heap.js` — class `MinHeap`, an array-backed binary min-heap of job
  objects ordered by `nextTrigger`, with `push`, `pop`, `peek`, `bubbleUp`,
  `bubbleDown`, `remove` and `isEmpty`.
* `src/main.js` — class `Cron`, the scheduler: keyed registry `jobs`, the heap,
  a single wake timer, and the operations `register`, `unregister`,
  `scheduleNextRun`, `runDueJobs`, `setNextTrigger`.

Jobs are JS objects compared by reference identity (`indexOf` in
`MinHeap.remove` uses `===`); we model object identity by a numeric `id` field.
Timestamps are integer seconds (`getTimestamp()`), intervals integers.
A callback is modelled by how it signals completion: it returns normally,
throws synchronously, or returns a promise that later rejects.

The JS while-loops of `bubbleUp`/`bubbleDown` are embedded as structurally
recursive functions on an explicit fuel argument; the fuel passed by the
wrappers (`l.length - 1`, resp. `l.length`) is an upper bound on the number of
loop iterations (the index strictly decreases, resp. strictly increases and
stays below the length), so the embedding computes exactly the loop's result.
-/

/-- How a registered callback signals completion: normal return, a synchronous
throw, or an asynchronously rejected promise. -/
inductive CbBeh
  | ok
  | throws
  | rejects
deriving DecidableEq, Repr

/-- A job object of `src/main.js` (`{ callback, interval, key }` plus the
`nextTrigger` field assigned by `setNextTrigger`). `id` models JS reference
identity. -/
structure Job where
  id : Nat
  key : String
  interval : Int
  nextTrigger : Int
  cb : CbBeh
deriving DecidableEq, Repr

instance : Inhabited Job where
  default := { id := 0, key := "", interval := 0, nextTrigger := 0, cb := .ok }

namespace MinHeap

/-- `this.items[i].nextTrigger` (all accesses in the source are in range). -/
def nt (l : List Job) (i : Nat) : Int :=
  (l.getD i default).nextTrigger

/-- The JS destructuring swap
`[items[i], items[j]] = [items[j], items[i]]`. -/
def swapAt (l : List Job) (i j : Nat) : List Job :=
  (l.set i (l.getD j default)).set j (l.getD i default)

/-- The `while (idx > 0)` loop of `bubbleUp`, with fuel.  One iteration:
compute `parentIdx = floor((idx-1)/2)`, stop if
`items[idx].nextTrigger >= items[parentIdx].nextTrigger`, otherwise swap and
continue from `parentIdx`. -/
def bubbleUpFuel : Nat → List Job → Nat → List Job
  | 0, l, _ => l
  | fuel + 1, l, idx =>
    if idx = 0 then l
    else if nt l idx ≥ nt l ((idx - 1) / 2) then l
    else bubbleUpFuel fuel (swapAt l idx ((idx - 1) / 2)) ((idx - 1) / 2)

/-- `bubbleUp()`: starts from the last index `items.length - 1`.  The index
strictly decreases each iteration, so `items.length - 1` fuel suffices. -/
def bubbleUp (l : List Job) : List Job :=
  bubbleUpFuel (l.length - 1) l (l.length - 1)

/-- `push(job)`: append then `bubbleUp()`. -/
def push (l : List Job) (j : Job) : List Job :=
  bubbleUp (l ++ [j])

/-- The `while (true)` loop of `bubbleDown`, with fuel.  One iteration: pick
`swapIdx` as in the source (left child if smaller than current, then right
child if smaller than the chosen comparand), stop if no candidate, otherwise
swap and continue from `swapIdx`. -/
def bubbleDownFuel : Nat → List Job → Nat → List Job
  | 0, l, _ => l
  | fuel + 1, l, idx =>
    if 2 * idx + 2 < l.length ∧
        nt l (2 * idx + 2) <
          (if 2 * idx + 1 < l.length ∧ nt l (2 * idx + 1) < nt l idx
           then nt l (2 * idx + 1) else nt l idx) then
      bubbleDownFuel fuel (swapAt l idx (2 * idx + 2)) (2 * idx + 2)
    else if 2 * idx + 1 < l.length ∧ nt l (2 * idx + 1) < nt l idx then
      bubbleDownFuel fuel (swapAt l idx (2 * idx + 1)) (2 * idx + 1)
    else l

/-- `bubbleDown()`: starts from index 0.  The index strictly increases and a
swap needs `2*idx+1 < length`, so `items.length` fuel suffices. -/
def bubbleDown (l : List Job) : List Job :=
  bubbleDownFuel l.length l 0

/-- `peek()`: returns `items[0]` (`undefined`, i.e. `none`, on empty). -/
def peek (l : List Job) : Option Job :=
  l.head?

/-- `pop()`.  Single element: `items.pop()`.  Otherwise save the root, move
the popped last element into slot 0, `bubbleDown()`, return the saved root.
The empty case is modelled as `(none, [])`; the raw JS array semantics of that
case (slot 0 is assigned `undefined`, so the array becomes `[undefined]`) is
embedded faithfully by `JsHeap.jsPop` below and settled there. -/
def pop (l : List Job) : Option Job × List Job :=
  if l.length = 1 then (l.head?, [])
  else if l.length = 0 then (none, [])
  else
    (l.head?,
      bubbleDown ((l.dropLast).set 0 (l.getLast?.getD default)))

/-- `remove(job)`: locate by reference identity (`indexOf`, modelled by `id`
equality), return if absent; otherwise pop the last element, and if the found
slot is still in range overwrite it with the popped element, then call
`bubbleUp()` (which starts at the *last* index) and `bubbleDown()` (which
starts at the *root*), exactly as the source does. -/
def remove (l : List Job) (j : Job) : List Job :=
  match l.findIdx? (fun x => x.id == j.id) with
  | none => l
  | some idx =>
    if idx < (l.dropLast).length then
      bubbleDown (bubbleUp ((l.dropLast).set idx (l.getLast?.getD default)))
    else l.dropLast

/-- `isEmpty()`: `items.length === 0`. -/
def isEmpty (l : List Job) : Bool :=
  l.length == 0

/-- The min-heap invariant: every non-root element's parent has a
`nextTrigger` that is less than or equal to its own (equivalently, every
parent's `nextTrigger` is ≤ both children's). -/
def IsHeap (l : List Job) : Prop :=
  ∀ i, i < l.length → 0 < i → nt l ((i - 1) / 2) ≤ nt l i

instance (l : List Job) : Decidable (IsHeap l) := by
  unfold IsHeap; infer_instance

/-- The spec's verification procedure for removal: extract every element by
repeated `pop()` (fuel `l.length`; each `pop` shrinks the list by one). -/
def extractAllFuel : Nat → List Job → List Job
  | 0, _ => []
  | fuel + 1, l =>
    if l.length = 0 then []
    else
      match pop l with
      | (some j, l2) => j :: extractAllFuel fuel l2
      | (none, _) => []

/-- Extract all elements of the queue in `pop()` order. -/
def extractAll (l : List Job) : List Job :=
  extractAllFuel l.length l

/-- Non-decreasing `nextTrigger` order, the observation in the spec's
removal test. -/
def sortedByNt : List Job → Bool
  | [] => true
  | [_] => true
  | a :: b :: t => decide (a.nextTrigger ≤ b.nextTrigger) && sortedByNt (b :: t)

/-- `peek()` returns an element whose `nextTrigger` is minimal among the
elements currently present (trivially true of the empty queue). -/
def PeekIsMin (l : List Job) : Prop :=
  ∀ m, peek l = some m → ∀ j, j ∈ l → m.nextTrigger ≤ j.nextTrigger

instance (l : List Job) : Decidable (PeekIsMin l) := by
  unfold PeekIsMin peek
  cases l.head? with
  | none => exact isTrue (by intro m hm; cases hm)
  | some m =>
    exact decidable_of_iff (∀ j ∈ l, m.nextTrigger ≤ j.nextTrigger)
      (by constructor
          · intro h m' hm' j hj
            cases hm'
            exact h j hj
          · intro h j hj
            exact h m rfl j hj)

end MinHeap

/-- One heap operation of the sequences in the heap-order claim. -/
inductive HeapOp
  | push (j : Job)
  | pop
  | remove (j : Job)
deriving DecidableEq, Repr

/-- Apply one operation to the queue (the state of `this.items`). -/
def applyOp (l : List Job) : HeapOp → List Job
  | .push j => MinHeap.push l j
  | .pop => (MinHeap.pop l).2
  | .remove j => MinHeap.remove l j

/-- Run a sequence of operations from a starting queue. -/
def applyOps (l : List Job) (ops : List HeapOp) : List Job :=
  ops.foldl applyOp l

/-! ## Faithful JS-array model of `pop()` on the empty queue

On an empty array, `pop()` runs `const top = this.items[0]` (`undefined`),
then `this.items[0] = this.items.pop()`: `Array.prototype.pop` on `[]`
returns `undefined` and leaves the array empty, and the assignment to index 0
then *creates* a slot holding `undefined`, so the array becomes
`[undefined]` with length 1.  `bubbleDown()` does nothing (no index is below
the length except 0, which has no children in range) and no property of
`undefined` is ever read, so no error is raised.  Slots are modelled as
`Option Job` (`none` = `undefined`); reading `.nextTrigger` from an
`undefined` slot would throw, modelled by `Except`. -/

namespace JsHeap

/-- Read `x.nextTrigger`; throws (`error`) when `x` is `undefined`. -/
def jsNt : Option Job → Except Unit Int
  | none => .error ()
  | some j => .ok j.nextTrigger

/-- JS assignment `arr[i] = v`: in-range writes the slot, out of range it
extends the array (filling holes with `undefined`). -/
def jsSet (l : List (Option Job)) (i : Nat) (v : Option Job) :
    List (Option Job) :=
  if i < l.length then l.set i v
  else l ++ List.replicate (i - l.length) none ++ [v]

/-- The destructuring swap on raw slots (no property read, never throws). -/
def jsSwap (l : List (Option Job)) (i j : Nat) : List (Option Job) :=
  (l.set i (l.getD j none)).set j (l.getD i none)

/-- `bubbleDown()` over raw slots, with fuel; property reads may throw. -/
def jsBubbleDownFuel : Nat → List (Option Job) → Nat →
    Except Unit (List (Option Job))
  | 0, l, _ => .ok l
  | fuel + 1, l, idx => do
    let c1 ←
      if 2 * idx + 1 < l.length then do
        let a ← jsNt (l.getD (2 * idx + 1) none)
        let b ← jsNt (l.getD idx none)
        pure (decide (a < b))
      else pure false
    let c2 ←
      if 2 * idx + 2 < l.length then do
        let a ← jsNt (l.getD (2 * idx + 2) none)
        let b ← if c1 then jsNt (l.getD (2 * idx + 1) none)
                else jsNt (l.getD idx none)
        pure (decide (a < b))
      else pure false
    if c2 then jsBubbleDownFuel fuel (jsSwap l idx (2 * idx + 2)) (2 * idx + 2)
    else if c1 then
      jsBubbleDownFuel fuel (jsSwap l idx (2 * idx + 1)) (2 * idx + 1)
    else pure l

/-- `bubbleDown()` from the root. -/
def jsBubbleDown (l : List (Option Job)) : Except Unit (List (Option Job)) :=
  jsBubbleDownFuel l.length l 0

/-- `pop()` over the raw array, faithful on *every* input including `[]`. -/
def jsPop (l : List (Option Job)) :
    Except Unit (Option Job × List (Option Job)) :=
  if l.length = 1 then .ok (l.getLast?.getD none, l.dropLast)
  else do
    let top := l.getD 0 none
    let l2 ← jsBubbleDown (jsSet l.dropLast 0 (l.getLast?.getD none))
    pure (top, l2)

/-- `isEmpty()` over the raw array. -/
def jsIsEmpty (l : List (Option Job)) : Bool :=
  l.length == 0

end JsHeap

/-! ## The scheduler (`src/main.js`) -/

/-- The record of one iteration of the drain loop: which job object was
popped and invoked, at which loop iteration, the `nextTrigger` it was
reassigned, and whether its callback failed. -/
structure RunRec where
  id : Nat
  key : String
  interval : Int
  iter : Nat
  newTrigger : Int
  failed : Bool
deriving DecidableEq, Repr

/-- Observable events of the `runOnInit` invocation inside `register`:
the call itself, a `log.error` from the `catch` block, or an asynchronous
rejection that the un-awaited `callback()` lets escape uncaught. -/
inductive InitEv
  | invoked (key : String)
  | errLogged (key : String)
  | uncaughtRejection (key : String)
deriving DecidableEq, Repr

/-- Read `this.jobs[key]` (plain JS object used as a map). -/
def objGet (m : List (String × Job)) (k : String) : Option Job :=
  match m with
  | [] => none
  | (k1, j) :: rest => if k1 = k then some j else objGet rest k

/-- Write `this.jobs[key] = job` (overwrites an existing entry). -/
def objSet (m : List (String × Job)) (k : String) (j : Job) :
    List (String × Job) :=
  match m with
  | [] => [(k, j)]
  | (k1, j1) :: rest =>
    if k1 = k then (k, j) :: rest else (k1, j1) :: objSet rest k j

/-- `delete this.jobs[key]`. -/
def objDelete (m : List (String × Job)) (k : String) : List (String × Job) :=
  m.filter (fun e => e.1 != k)

/-- The scheduler state: the keyed registry `jobs`, the heap, the single
pending wake timer (modelled by its absolute fire time), and the id supply
modelling allocation of fresh job objects. -/
structure CronState where
  jobs : List (String × Job)
  heap : List Job
  timer : Option Int
  nextId : Nat
deriving DecidableEq, Repr

/-- `scheduleNextRun()`'s timer computation: if the heap is empty no timer is
armed, otherwise one one-shot wake at `now + max 0 (peek.nextTrigger - now)`
(the source multiplies the delay by 1000 to convert seconds to the
milliseconds `setTimeout` expects; we keep seconds). -/
def armTimer (heap : List Job) (now : Int) : Option Int :=
  if MinHeap.isEmpty heap then none
  else some (now + max 0 (((MinHeap.peek heap).getD default).nextTrigger - now))

/-- `scheduleNextRun()`: `clearTimeout(this.timer)` then arm (or not);
cancellation of the previous timer is modelled by unconditional
replacement of the timer field. -/
def scheduleNextRun (st : CronState) (now : Int) : CronState :=
  { st with timer := armTimer st.heap now }

/-- Number of currently due jobs in the queue. -/
def dueCount (now : Int) (l : List Job) : Nat :=
  (l.filter (fun j => decide (j.nextTrigger ≤ now))).length

/-- The `while (!heap.isEmpty() && heap.peek().nextTrigger <= now)` loop of
`runDueJobs`, with fuel (`none` = fuel exhausted with the loop still
running).  `now` is the time captured once at drain start; `fresh i` is the
fresh `getTimestamp()` read performed by `setNextTrigger` at iteration `i`
(`parseInt(job.interval, 10)` is the identity on our integer intervals).
The `try { await job.callback() } catch` reports a failure — synchronous
throw or awaited rejection alike — to `log.error` (`errs`) and continues. -/
def drainLoop : Nat → Int → (Nat → Int) → Nat → List Job → List RunRec →
    List String → Option (List Job × List RunRec × List String)
  | 0, now, _, _, heap, runs, errs =>
    if MinHeap.isEmpty heap = false ∧
        ((MinHeap.peek heap).getD default).nextTrigger ≤ now then none
    else some (heap, runs, errs)
  | fuel + 1, now, fresh, k, heap, runs, errs =>
    if MinHeap.isEmpty heap = false ∧
        ((MinHeap.peek heap).getD default).nextTrigger ≤ now then
      let job := (MinHeap.pop heap).1.getD default
      let heap1 := (MinHeap.pop heap).2
      let errs1 := match job.cb with
        | .ok => errs
        | _ => errs ++ [job.key]
      let nt1 := fresh k + job.interval
      drainLoop fuel now fresh (k + 1)
        (MinHeap.push heap1 { job with nextTrigger := nt1 })
        (runs ++ [{ id := job.id, key := job.key, interval := job.interval,
                    iter := k, newTrigger := nt1,
                    failed := decide (job.cb ≠ .ok) }])
        errs1
    else some (heap, runs, errs)

/-- `runDueJobs()`: capture `now`, drain all due jobs, then re-arm the wake
timer via `scheduleNextRun()`.  The fuel `dueCount now heap` is exactly the
number of loop iterations possible when every reinserted job is no longer
due (proved below under the spec's positive-interval and monotone-clock
assumptions). -/
def runDueJobs (st : CronState) (now : Int) (fresh : Nat → Int) :
    Option (CronState × List RunRec × List String) :=
  match drainLoop (dueCount now st.heap) now fresh 0 st.heap [] [] with
  | none => none
  | some (h, runs, errs) =>
    some ({ st with heap := h, timer := armTimer h now }, runs, errs)

/-- The observable events of the `runOnInit` branch of `register`:
`try { callback(); } catch (err) { log.error(...) }` — the call is *not*
awaited, so only a synchronous throw reaches the `catch`; a rejected
promise escapes uncaught. -/
def runOnInitEvents (key : String) : CbBeh → List InitEv
  | .ok => [.invoked key]
  | .throws => [.invoked key, .errLogged key]
  | .rejects => [.invoked key, .uncaughtRejection key]

/-- `register(key, callback, interval, runOnInit=false)`: build the job with
`nextTrigger = now + interval` (`setNextTrigger`), store it in the registry
(overwriting any prior entry), push it onto the heap, optionally invoke the
callback immediately, and re-arm the wake timer. -/
def register (st : CronState) (now : Int) (key : String) (cb : CbBeh)
    (interval : Int) (runOnInit : Bool) : CronState × List InitEv :=
  let job : Job := { id := st.nextId, key := key, interval := interval,
                     nextTrigger := now + interval, cb := cb }
  let jobs1 := objSet st.jobs key job
  let heap1 := MinHeap.push st.heap job
  let evs := if runOnInit then runOnInitEvents key cb else []
  ({ jobs := jobs1, heap := heap1, timer := armTimer heap1 now,
     nextId := st.nextId + 1 }, evs)

/-- `unregister(key)`: look the key up; if absent return immediately
(registry, heap and timer untouched); otherwise delete the registry entry,
remove that job object from the heap by identity, and re-arm the timer. -/
def unregister (st : CronState) (now : Int) (key : String) : CronState :=
  match objGet st.jobs key with
  | none => st
  | some job =>
    scheduleNextRun
      { st with jobs := objDelete st.jobs key,
                heap := MinHeap.remove st.heap job } now

/-- Advance the (fake) clock to absolute time `T`: while the pending wake
timer's fire time `tf` is ≤ `T`, fire it — which runs `runDueJobs` with all
time reads returning `tf` — and continue with the state it leaves behind.
Returns the final state and the concatenated run records; `none` = fuel
exhausted (or a drain that did not finish). -/
def advanceFuel : Nat → CronState → Int → Option (CronState × List RunRec)
  | 0, st, T =>
    match st.timer with
    | none => some (st, [])
    | some tf => if tf ≤ T then none else some (st, [])
  | fuel + 1, st, T =>
    match st.timer with
    | none => some (st, [])
    | some tf =>
      if tf ≤ T then
        match runDueJobs st tf (fun _ => tf) with
        | none => none
        | some (st1, runs, _) =>
          match advanceFuel fuel st1 T with
          | none => none
          | some (st2, rs) => some (st2, runs ++ rs)
      else some (st, [])

/-- The scheduler's initial state. -/
def emptyCron : CronState :=
  { jobs := [], heap := [], timer := none, nextId := 0 }

/-! ## Concrete inputs for the heap-removal defect -/

/-- A job with identity `i` and trigger time `t` (other fields fixed). -/
def demoJob (i : Nat) (t : Int) : Job :=
  { id := i, key := "j", interval := 1, nextTrigger := t, cb := .ok }

/-- A valid six-element min-heap (triggers `0,0,1,0,1,1`). -/
def demoHeap : List Job :=
  [demoJob 0 0, demoJob 1 0, demoJob 2 1, demoJob 3 0, demoJob 4 1,
   demoJob 5 1]

/-- Push the six `demoHeap` jobs, remove the (non-root) job with identity 1,
then pop once. -/
def demoOps : List HeapOp :=
  [.push (demoJob 0 0), .push (demoJob 1 0), .push (demoJob 2 1),
   .push (demoJob 3 0), .push (demoJob 4 1), .push (demoJob 5 1),
   .remove (demoJob 1 0), .pop]

/-! ## Basic list infrastructure -/

namespace MinHeap

theorem swapAt_length (l : List Job) (i j : Nat) :
    (swapAt l i j).length = l.length := by
  simp [swapAt]

theorem getD_set_ne (l : List Job) (i j : Nat) (a d : Job) (h : i ≠ j) :
    (l.set i a).getD j d = l.getD j d := by
  induction l generalizing i j with
  | nil => simp
  | cons x t ih =>
    cases i with
    | zero =>
      cases j with
      | zero => exact absurd rfl h
      | succ j => simp [List.getD]
    | succ i =>
      cases j with
      | zero => simp [List.getD]
      | succ j =>
        simp only [List.set_cons_succ, List.getD_cons_succ]
        exact ih i j (by omega)

theorem set_getD_self (l : List Job) (i : Nat) (d : Job) (h : i < l.length) :
    l.set i (l.getD i d) = l := by
  induction l generalizing i with
  | nil => simp at h
  | cons x t ih =>
    cases i with
    | zero => simp [List.getD]
    | succ i =>
      simp only [List.getD_cons_succ, List.set_cons_succ, List.cons.injEq,
        true_and]
      exact ih i (by simpa using h)

theorem count_set_add (l : List Job) (i : Nat) (a d b : Job)
    (h : i < l.length) :
    (l.set i a).count b + (if l.getD i d = b then 1 else 0)
      = l.count b + (if a = b then 1 else 0) := by
  induction l generalizing i with
  | nil => simp at h
  | cons x t ih =>
    cases i with
    | zero =>
      simp only [List.set_cons_zero, List.getD_cons_zero, List.count_cons]
      by_cases hx : x = b <;> by_cases ha : a = b <;>
        simp [hx, ha, beq_iff_eq]
    | succ i =>
      simp only [List.set_cons_succ, List.getD_cons_succ, List.count_cons]
      have h3 := ih i (by simpa using h)
      simp only [List.getD, List.get?_eq_getElem?] at h3 ⊢
      by_cases hx : x = b <;> simp [hx, beq_iff_eq] <;> omega

theorem swapAt_perm (l : List Job) (i j : Nat) (hi : i < l.length)
    (hj : j < l.length) : (swapAt l i j).Perm l := by
  by_cases hij : i = j
  · subst hij
    rw [swapAt, List.set_set, set_getD_self l i default hi]
  · rw [List.perm_iff_count]
    intro b
    have h1 := count_set_add (l.set i (l.getD j default)) j
      (l.getD i default) default b (by simpa using hj)
    have h2 := count_set_add l i (l.getD j default) default b hi
    rw [getD_set_ne l i j _ default hij] at h1
    unfold swapAt
    omega

theorem set_perm_cons (m : List Job) (i : Nat) (a : Job) (h : i < m.length) :
    (m.set i a).Perm (a :: m.eraseIdx i) := by
  induction m generalizing i with
  | nil => simp at h
  | cons x t ih =>
    cases i with
    | zero => simp
    | succ i =>
      simp only [List.set_cons_succ, List.eraseIdx_cons_succ]
      exact ((ih i (by simpa using h)).cons x).trans (List.Perm.swap a x _)

theorem eraseIdx_last (l : List Job) (h : l ≠ []) :
    l.eraseIdx (l.length - 1) = l.dropLast := by
  induction l with
  | nil => simp at h
  | cons x t ih =>
    cases t with
    | nil => simp
    | cons y s =>
      have : (x :: y :: s).length - 1 = (y :: s).length - 1 + 1 := by
        simp
      rw [this, List.eraseIdx_cons_succ, ih (by simp), List.dropLast_cons₂]

/-! ## Permutation facts about the heap operations -/

theorem bubbleUpFuel_perm (fuel : Nat) :
    ∀ (l : List Job) (idx : Nat), idx < l.length →
      (bubbleUpFuel fuel l idx).Perm l := by
  induction fuel with
  | zero => intro l idx _; exact List.Perm.refl l
  | succ fuel ih =>
    intro l idx h
    unfold bubbleUpFuel
    by_cases h0 : idx = 0
    · rw [if_pos h0]
    · rw [if_neg h0]
      by_cases hcmp : nt l idx ≥ nt l ((idx - 1) / 2)
      · rw [if_pos hcmp]
      · rw [if_neg hcmp]
        have hp : (idx - 1) / 2 < l.length := by omega
        exact (ih _ _ (by rw [swapAt_length]; exact hp)).trans
          (swapAt_perm l idx _ h hp)

theorem bubbleUp_perm (l : List Job) : (bubbleUp l).Perm l := by
  cases l with
  | nil => exact List.Perm.refl _
  | cons x t =>
    exact bubbleUpFuel_perm _ _ _ (by simp)

theorem push_perm (l : List Job) (j : Job) : (push l j).Perm (l ++ [j]) :=
  bubbleUp_perm (l ++ [j])

theorem mem_push (l : List Job) (j x : Job) :
    x ∈ push l j ↔ x ∈ l ∨ x = j := by
  rw [(push_perm l j).mem_iff]
  simp

theorem bubbleDownFuel_perm (fuel : Nat) :
    ∀ (l : List Job) (idx : Nat), (bubbleDownFuel fuel l idx).Perm l := by
  induction fuel with
  | zero => intro l idx; exact List.Perm.refl l
  | succ fuel ih =>
    intro l idx
    unfold bubbleDownFuel
    by_cases h2 : 2 * idx + 2 < l.length ∧
        nt l (2 * idx + 2) <
          (if 2 * idx + 1 < l.length ∧ nt l (2 * idx + 1) < nt l idx
           then nt l (2 * idx + 1) else nt l idx)
    · simp only [h2, if_true]
      exact (ih _ _).trans (swapAt_perm l idx _ (by omega) h2.1)
    · simp only [h2, if_false]
      by_cases h1 : 2 * idx + 1 < l.length ∧ nt l (2 * idx + 1) < nt l idx
      · simp only [h1, if_true]
        exact (ih _ _).trans (swapAt_perm l idx _ (by omega) h1.1)
      · simp [h1]

theorem bubbleDown_perm (l : List Job) : (bubbleDown l).Perm l :=
  bubbleDownFuel_perm _ l 0

theorem pop_fst (l : List Job) (h : 0 < l.length) :
    (pop l).1 = l.head? := by
  unfold pop
  by_cases h1 : l.length = 1
  · simp [h1]
  · simp [h1, Nat.pos_iff_ne_zero.mp h]

theorem pop_snd_perm (l : List Job) (h : 0 < l.length) :
    (pop l).2.Perm l.tail := by
  cases l with
  | nil => simp at h
  | cons a t =>
    cases t with
    | nil => simp [pop]
    | cons b s =>
      have hlen : (a :: b :: s).length ≠ 1 := by simp
      have hne : (b :: s) ≠ [] := by simp
      unfold pop
      simp only [hlen, if_false, List.length_cons, Nat.succ_ne_zero,
        if_false, List.tail_cons]
      refine (bubbleDown_perm _).trans ?_
      rw [List.dropLast_cons₂, List.set_cons_zero,
        List.getLast?_eq_getLast _ (by simp), Option.getD_some,
        List.getLast_cons hne]
      have e1 : (b :: s).dropLast ++ [List.getLast (b :: s) hne] = b :: s :=
        List.dropLast_append_getLast hne
      conv_rhs => rw [← e1]
      exact (List.perm_append_singleton _ _).symm

theorem remove_none (l : List Job) (j : Job)
    (h : l.findIdx? (fun x => x.id == j.id) = none) : remove l j = l := by
  unfold remove
  rw [h]

theorem remove_found_perm (l : List Job) (j : Job) (idx : Nat)
    (hfind : l.findIdx? (fun x => x.id == j.id) = some idx)
    (hidx : idx < l.length) :
    (remove l j).Perm (l.eraseIdx idx) := by
  have hne : l ≠ [] := by
    intro h; subst h; simp at hidx
  unfold remove
  rw [hfind]
  by_cases hlt : idx < (l.dropLast).length
  · simp only [hlt, if_true]
    refine (bubbleDown_perm _).trans ((bubbleUp_perm _).trans ?_)
    have hsplit : l.dropLast ++ [l.getLast hne] = l :=
      List.dropLast_append_getLast hne
    rw [List.getLast?_eq_getLast _ hne, Option.getD_some]
    have e1 : l.eraseIdx idx
        = (l.dropLast).eraseIdx idx ++ [l.getLast hne] := by
      conv_lhs => rw [← hsplit]
      rw [List.eraseIdx_append_of_lt_length hlt]
    rw [e1]
    exact (set_perm_cons _ idx _ hlt).trans
      (List.perm_append_singleton _ _).symm
  · simp only [hlt, if_false]
    have : idx = l.length - 1 := by
      have := List.length_dropLast l
      omega
    rw [this, eraseIdx_last l hne]
end MinHeap

/-! ## Facts about the due-job count and the drain loop -/

theorem dueCount_perm {l1 l2 : List Job} (now : Int) (h : l1.Perm l2) :
    dueCount now l1 = dueCount now l2 := by
  unfold dueCount
  exact (h.filter _).length_eq

theorem dueCount_cons (now : Int) (a : Job) (t : List Job) :
    dueCount now (a :: t)
      = (if a.nextTrigger ≤ now then 1 else 0) + dueCount now t := by
  unfold dueCount
  rw [List.filter_cons]
  by_cases h : a.nextTrigger ≤ now <;> simp [h] <;> omega

theorem dueCount_append (now : Int) (l1 l2 : List Job) :
    dueCount now (l1 ++ l2) = dueCount now l1 + dueCount now l2 := by
  unfold dueCount
  rw [List.filter_append, List.length_append]

theorem dueCount_push (now : Int) (l : List Job) (j : Job) :
    dueCount now (MinHeap.push l j)
      = dueCount now l + (if j.nextTrigger ≤ now then 1 else 0) := by
  rw [dueCount_perm now (MinHeap.push_perm l j), dueCount_append,
    dueCount_cons]
  simp [dueCount]

theorem dueCount_pos_of_head_due (now : Int) (heap : List Job)
    (hne : MinHeap.isEmpty heap = false)
    (hdue : ((MinHeap.peek heap).getD default).nextTrigger ≤ now) :
    1 ≤ dueCount now heap := by
  cases heap with
  | nil => simp [MinHeap.isEmpty] at hne
  | cons a t =>
    simp only [MinHeap.peek, List.head?_cons, Option.getD_some] at hdue
    rw [dueCount_cons, if_pos hdue]
    omega


/-- Master lemma about one drain pass: under the spec's assumptions that every
interval is a positive integer and that the clock is monotone (each fresh
read is ≥ the captured drain-start time), the loop with fuel
`dueCount now heap` completes; every recorded run was reassigned
`nextTrigger = fresh iter + interval > now`, a failing run is reported in the
error log, the rescheduled job object is in the final heap, at most
`dueCount now heap` runs happen, and every not-yet-due job survives. -/
theorem drainLoop_spec (now : Int) (fresh : Nat → Int)
    (hM : ∀ i, now ≤ fresh i) :
    ∀ (fuel : Nat) (heap : List Job) (k : Nat) (runs : List RunRec)
      (errs : List String),
      (∀ j ∈ heap, 1 ≤ j.interval) →
      dueCount now heap ≤ fuel →
      ∃ hout newRuns newErrs,
        drainLoop fuel now fresh k heap runs errs
          = some (hout, runs ++ newRuns, errs ++ newErrs) ∧
        newRuns.length ≤ dueCount now heap ∧
        (∀ r ∈ newRuns,
          r.newTrigger = fresh r.iter + r.interval ∧
          1 ≤ r.interval ∧
          now < r.newTrigger ∧
          (r.failed = true → r.key ∈ newErrs) ∧
          ∃ j1 ∈ hout, j1.id = r.id ∧ j1.nextTrigger = r.newTrigger ∧
            j1.interval = r.interval ∧ j1.key = r.key) ∧
        (∀ j ∈ heap, now < j.nextTrigger → j ∈ hout) := by
  intro fuel
  induction fuel with
  | zero =>
    intro heap k runs errs _ hfuel
    refine ⟨heap, [], [], ?_, by simp, by simp,
      fun j hj _ => hj⟩
    unfold drainLoop
    rw [if_neg, List.append_nil, List.append_nil]
    intro hcond
    have := dueCount_pos_of_head_due now heap hcond.1 hcond.2
    omega
  | succ fuel ih =>
    intro heap k runs errs hint hfuel
    by_cases hcond : MinHeap.isEmpty heap = false ∧
        ((MinHeap.peek heap).getD default).nextTrigger ≤ now
    · cases heap with
      | nil => simp [MinHeap.isEmpty] at hcond
      | cons a t =>
        have hpos : 0 < (a :: t).length := by simp
        have hfst : (MinHeap.pop (a :: t)).1 = some a := by
          rw [MinHeap.pop_fst _ hpos]; rfl
        have hsnd : (MinHeap.pop (a :: t)).2.Perm t :=
          MinHeap.pop_snd_perm _ hpos
        have hadue : a.nextTrigger ≤ now := by
          simpa [MinHeap.peek] using hcond.2
        have haint : 1 ≤ a.interval := hint a (by simp)
        have hcnt : dueCount now (a :: t) = 1 + dueCount now t := by
          rw [dueCount_cons, if_pos hadue]
        have hj1nt : now < fresh k + a.interval := by
          have h5 := hM k
          omega
        have hheap2 :
            dueCount now
                (MinHeap.push (MinHeap.pop (a :: t)).2
                  { a with nextTrigger := fresh k + a.interval })
              = dueCount now t := by
          rw [dueCount_push, dueCount_perm now hsnd, if_neg (by simpa using
            (by omega : ¬ (fresh k + a.interval ≤ now)))]
          omega
        have hint2 : ∀ x ∈ MinHeap.push (MinHeap.pop (a :: t)).2
            { a with nextTrigger := fresh k + a.interval },
            1 ≤ x.interval := by
          intro x hx
          rcases (MinHeap.mem_push _ _ _).mp hx with hx | hx
          · exact hint x (List.Mem.tail a (hsnd.mem_iff.mp hx))
          · subst hx; simpa using haint
        have hfuel2 : dueCount now (MinHeap.push (MinHeap.pop (a :: t)).2
            { a with nextTrigger := fresh k + a.interval }) ≤ fuel := by
          rw [hheap2]; omega
        obtain ⟨hout, newRuns, newErrs, hrun, hlen, hprops, hkeep⟩ :=
          ih (MinHeap.push (MinHeap.pop (a :: t)).2
              { a with nextTrigger := fresh k + a.interval }) (k + 1)
            (runs ++ [⟨a.id, a.key, a.interval, k, fresh k + a.interval,
              decide (a.cb ≠ .ok)⟩])
            (match a.cb with | .ok => errs | _ => errs ++ [a.key])
            hint2 hfuel2
        have herrsplit : (match a.cb with
            | .ok => errs | _ => errs ++ [a.key])
            = errs ++ (match a.cb with
              | CbBeh.ok => [] | _ => [a.key]) := by
          cases a.cb <;> simp
        refine ⟨hout,
          ⟨a.id, a.key, a.interval, k, fresh k + a.interval,
            decide (a.cb ≠ .ok)⟩ :: newRuns,
          (match a.cb with | CbBeh.ok => [] | _ => [a.key]) ++ newErrs,
          ?_, ?_, ?_, ?_⟩
        · unfold drainLoop
          rw [if_pos hcond]
          simp only [hfst, Option.getD_some]
          rw [herrsplit] at hrun
          rw [herrsplit]
          simpa [List.append_assoc] using hrun
        · rw [hheap2] at hlen
          simp only [List.length_cons]
          omega
        · intro r hr
          rcases List.mem_cons.mp hr with hr | hr
          · subst hr
            refine ⟨rfl, haint, hj1nt, ?_, ?_⟩
            · intro hfail
              have hne2 : a.cb ≠ .ok := by simpa using hfail
              refine List.mem_append_left _ ?_
              cases hcb : a.cb with
              | ok => exact absurd hcb hne2
              | throws => simp
              | rejects => simp
            · refine ⟨{ a with nextTrigger := fresh k + a.interval },
                hkeep _ ((MinHeap.mem_push _ _ _).mpr (Or.inr rfl))
                  (by simpa using hj1nt), by simp, by simp, by simp, by simp⟩
          · obtain ⟨h1, h2, h3, h4, j2, hj2mem, hj2⟩ := hprops r hr
            exact ⟨h1, h2, h3, fun hf => List.mem_append_right _ (h4 hf),
              j2, hj2mem, hj2⟩
        · intro j hj hjnt
          rcases List.mem_cons.mp hj with hj | hj
          · subst hj; omega
          · exact hkeep j
              ((MinHeap.mem_push _ _ _).mpr (Or.inl (hsnd.mem_iff.mpr hj)))
              hjnt
    · refine ⟨heap, [], [], ?_, by simp, by simp, fun j hj _ => hj⟩
      unfold drainLoop
      rw [if_neg hcond, List.append_nil, List.append_nil]

/-! ## Registry (`this.jobs`) facts -/

theorem objGet_objSet_self (m : List (String × Job)) (k : String) (j : Job) :
    objGet (objSet m k j) k = some j := by
  induction m with
  | nil => simp [objSet, objGet]
  | cons e rest ih =>
    obtain ⟨k1, j1⟩ := e
    by_cases h : k1 = k
    · simp [objSet, h, objGet]
    · simp only [objSet, h, if_false, objGet]
      exact ih

theorem objGet_objSet_ne (m : List (String × Job)) (k k2 : String) (j : Job)
    (h : k2 ≠ k) : objGet (objSet m k j) k2 = objGet m k2 := by
  have hkk2 : ¬ (k = k2) := fun hk => h hk.symm
  induction m with
  | nil =>
    simp only [objSet, objGet]
    rw [if_neg hkk2]
  | cons e rest ih =>
    obtain ⟨k1, j1⟩ := e
    by_cases he : k1 = k
    · simp only [objSet, he, if_true, objGet]
      rw [if_neg hkk2, if_neg hkk2]
    · simp only [objSet, he, if_false, objGet]
      by_cases he2 : k1 = k2
      · rw [if_pos he2, if_pos he2]
      · rw [if_neg he2, if_neg he2]
        exact ih

theorem objGet_objDelete_self (m : List (String × Job)) (k : String) :
    objGet (objDelete m k) k = none := by
  induction m with
  | nil => rfl
  | cons e rest ih =>
    obtain ⟨k1, j1⟩ := e
    simp only [objDelete, List.filter_cons] at ih ⊢
    by_cases h : k1 = k
    · have hb : ((k1, j1).1 != k) = false := by simpa using h
      rw [hb]
      simpa using ih
    · have hb : ((k1, j1).1 != k) = true := by simpa using h
      rw [hb]
      simp only [if_true, objGet, h, if_false]
      simpa using ih

theorem objGet_objDelete_ne (m : List (String × Job)) (k k2 : String)
    (h : k2 ≠ k) : objGet (objDelete m k) k2 = objGet m k2 := by
  induction m with
  | nil => rfl
  | cons e rest ih =>
    obtain ⟨k1, j1⟩ := e
    simp only [objDelete, List.filter_cons] at ih ⊢
    by_cases he : k1 = k
    · have hb : ((k1, j1).1 != k) = false := by simpa using he
      have he2 : ¬ (k1 = k2) := by rw [he]; exact fun hk => h hk.symm
      rw [hb]
      simp only [if_false, objGet, he2]
      simpa using ih
    · have hb : ((k1, j1).1 != k) = true := by simpa using he
      rw [hb]
      simp only [if_true, objGet]
      by_cases he2 : k1 = k2
      · rw [if_pos he2, if_pos he2]
      · rw [if_neg he2, if_neg he2]
        simpa using ih

/-- If the element at `idx` equals `j` and no earlier element does, erasing
`j` by value is erasing index `idx`. -/
theorem erase_eq_eraseIdx_of_first (l : List Job) (j : Job) :
    ∀ (idx : Nat), idx < l.length → l.getD idx default = j →
      (∀ i, i < idx → l.getD i default ≠ j) →
      l.erase j = l.eraseIdx idx := by
  induction l with
  | nil => intro idx h; simp at h
  | cons x t ih =>
    intro idx hlen hat hbefore
    cases idx with
    | zero =>
      simp only [List.getD_cons_zero] at hat
      subst hat
      simp [List.erase_cons]
    | succ idx =>
      have hx : x ≠ j := by
        have := hbefore 0 (by omega)
        simpa using this
      rw [List.erase_cons_tail (by simpa using hx), List.eraseIdx_cons_succ]
      rw [ih idx (by simpa using hlen) (by simpa using hat)
        (fun i hi => by simpa using hbefore (i + 1) (by omega))]

/-- `unregister` on an unknown key returns the state unchanged. -/
theorem unregister_not_found (st : CronState) (now : Int) (k : String)
    (h : objGet st.jobs k = none) : unregister st now k = st := by
  unfold unregister
  rw [h]

/-! ## Claim theorems -/

/-- Claim C1: the spec says removing an arbitrary non-root element from a
valid min-heap of size k leaves a valid min-heap of size k-1, with extraction
yielding non-decreasing `nextTrigger` order.  The source's `remove` sifts
from the last index (`bubbleUp`) and the root (`bubbleDown`) instead of the
replaced slot, so this fails: on the valid six-element heap `demoHeap`
(triggers 0,0,1,0,1,1), removing the non-root element with identity 1 leaves
an array that violates the heap invariant, and extracting everything yields
triggers 0,1,0,1,1 — not non-decreasing. -/
theorem minheap_remove_breaks_invariant :
    MinHeap.IsHeap demoHeap ∧
    demoJob 1 0 ∈ demoHeap ∧
    MinHeap.peek demoHeap ≠ some (demoJob 1 0) ∧
    ¬ MinHeap.IsHeap (MinHeap.remove demoHeap (demoJob 1 0)) ∧
    MinHeap.sortedByNt
      (MinHeap.extractAll (MinHeap.remove demoHeap (demoJob 1 0))) = false ∧
    (MinHeap.remove demoHeap (demoJob 1 0)).length = demoHeap.length - 1 := by
  decide

/-- Claim C2: the spec says that over every sequence of push/pop/remove
operations from the empty queue, `peek` always returns an element with
minimal `nextTrigger`.  The defective `remove` breaks this: after the
eight-operation sequence `demoOps` (six pushes, one non-root removal, one
pop) the queue is non-empty, `peek` returns a job with `nextTrigger` 1,
yet a job with `nextTrigger` 0 is still present. -/
theorem heap_order_peek_min_violated :
    applyOps [] demoOps ≠ [] ∧ ¬ MinHeap.PeekIsMin (applyOps [] demoOps) := by
  decide

/-- Claim C9 (counterexample part): calling `pop` on the empty queue does
not leave the queue unchanged — the root slot is assigned the `undefined`
result of popping the empty array, so the array becomes `[undefined]` and
`isEmpty()` afterwards returns `false`, contradicting the claim that the
queue is still empty. -/
theorem pop_empty_queue_changed_cex :
    JsHeap.jsPop [] = Except.ok (none, [none]) ∧
    JsHeap.jsIsEmpty [none] = false :=
  ⟨rfl, rfl⟩

/-- Claim C9 (amended): `pop()` on the empty queue returns an absent result
and raises no error, but it does not leave the queue unchanged: afterwards
the array holds exactly one `undefined` slot and `isEmpty()` returns
`false`. -/
theorem pop_empty_returns_absent_but_leaves_slot :
    ∃ s, JsHeap.jsPop [] = Except.ok (none, s) ∧ s.length = 1 ∧
      (∀ x ∈ s, x = none) ∧ JsHeap.jsIsEmpty s = false :=
  ⟨[none], rfl, rfl, by simp, rfl⟩

/-- Claim C8 (counterexample part): a `runOnInit` callback that completes
asynchronously with failure is *not* caught: `register` invokes it without
awaiting, so the rejection escapes uncaught and nothing is logged,
contradicting the claim that any failure of the immediate invocation —
including an asynchronous one — is caught and reported. -/
theorem runOnInit_async_failure_escapes_cex :
    InitEv.uncaughtRejection "k" ∈ (register emptyCron 0 "k" .rejects 5 true).2 ∧
    InitEv.errLogged "k" ∉ (register emptyCron 0 "k" .rejects 5 true).2 := by
  decide

/-- Claim C8 (amended): a failure signalled synchronously by the `runOnInit`
invocation is caught and reported via the logger and does not propagate to
the caller of `register`; but the invocation is not awaited, so a callback
that completes asynchronously with failure escapes uncaught (and unlogged). -/
theorem runOnInit_sync_failure_caught_async_escapes (st : CronState)
    (now : Int) (k : String) (interval : Int) :
    (register st now k .throws interval true).2
      = [.invoked k, .errLogged k] ∧
    (register st now k .rejects interval true).2
      = [.invoked k, .uncaughtRejection k] :=
  ⟨rfl, rfl⟩

/-- Claim C6: `scheduleNextRun` first discards any pending wake timer (its
result does not depend on the previous timer), arms nothing when the queue
is empty, and otherwise arms exactly one one-shot wake with delay
`max 0 (peekMin().nextTrigger - now)`, which is never negative. -/
theorem scheduleNextRun_timer_policy (st : CronState) (now : Int) :
    (∀ t1 t2 : Option Int,
      scheduleNextRun { st with timer := t1 } now
        = scheduleNextRun { st with timer := t2 } now) ∧
    (MinHeap.isEmpty st.heap = true → (scheduleNextRun st now).timer = none) ∧
    (∀ j, MinHeap.peek st.heap = some j →
      (scheduleNextRun st now).timer = some (now + max 0 (j.nextTrigger - now))
        ∧ 0 ≤ max 0 (j.nextTrigger - now)) := by
  refine ⟨fun t1 t2 => rfl, ?_, ?_⟩
  · intro h
    simp [scheduleNextRun, armTimer, h]
  · intro j hj
    have hne : MinHeap.isEmpty st.heap = false := by
      cases hh : st.heap with
      | nil => rw [hh] at hj; simp [MinHeap.peek] at hj
      | cons a t => simp [MinHeap.isEmpty, hh]
    exact ⟨by simp [scheduleNextRun, armTimer, hne, hj],
      le_max_left 0 _⟩

/-- Claim C4: re-registering an existing key overwrites the registry entry
(the registry maps the key to exactly the new job), but the old job object
is not removed from the heap: after the second `register` the heap contains
both the old and the new job, and the old job is no longer reachable through
the registry. -/
theorem register_duplicate_key_leaks_heap_entry (st : CronState) (now : Int)
    (k : String) (cb2 : CbBeh) (i2 : Int) (jOld : Job)
    (hreg : objGet st.jobs k = some jOld)
    (hheap : jOld ∈ st.heap)
    (hid : jOld.id ≠ st.nextId)
    (honly : ∀ k2, objGet st.jobs k2 = some jOld → k2 = k) :
    ∃ jNew, objGet ((register st now k cb2 i2 false).1).jobs k = some jNew ∧
      jNew.id = st.nextId ∧ jNew.key = k ∧ jNew.interval = i2 ∧
      jNew.nextTrigger = now + i2 ∧ jNew.cb = cb2 ∧
      jNew ≠ jOld ∧
      jNew ∈ ((register st now k cb2 i2 false).1).heap ∧
      jOld ∈ ((register st now k cb2 i2 false).1).heap ∧
      (∀ k2, objGet ((register st now k cb2 i2 false).1).jobs k2
        ≠ some jOld) := by
  refine ⟨Job.mk st.nextId k i2 (now + i2) cb2, ?_, rfl, rfl, rfl, rfl, rfl,
      ?_, ?_, ?_, ?_⟩
  · exact objGet_objSet_self st.jobs k _
  · intro h
    exact hid (by rw [← h])
  · exact (MinHeap.mem_push _ _ _).mpr (Or.inr rfl)
  · exact (MinHeap.mem_push _ _ _).mpr (Or.inl hheap)
  · intro k2 h
    have h2 : objGet (objSet st.jobs k (Job.mk st.nextId k i2 (now + i2) cb2))
        k2 = some jOld := h
    by_cases hk2 : k2 = k
    · subst hk2
      rw [objGet_objSet_self st.jobs k2 _] at h2
      have h3 := Option.some.inj h2
      exact hid (by rw [← h3])
    · rw [objGet_objSet_ne st.jobs k k2 _ hk2] at h2
      exact hk2 (honly k2 h2)

/-- Witness for C4 at a concrete one-job state. -/
theorem register_duplicate_key_leaks_heap_entry_witness :
    ∃ jNew,
      objGet ((register (CronState.mk [("a", demoJob 0 7)]
          [demoJob 0 7] none 1) 3 "a" .ok 2 false).1).jobs "a" = some jNew ∧
      jNew.id = 1 ∧ jNew.key = "a" ∧ jNew.interval = 2 ∧
      jNew.nextTrigger = 3 + 2 ∧ jNew.cb = .ok ∧
      jNew ≠ demoJob 0 7 ∧
      jNew ∈ ((register (CronState.mk [("a", demoJob 0 7)]
          [demoJob 0 7] none 1) 3 "a" .ok 2 false).1).heap ∧
      demoJob 0 7 ∈ ((register (CronState.mk [("a", demoJob 0 7)]
          [demoJob 0 7] none 1) 3 "a" .ok 2 false).1).heap ∧
      (∀ k2, objGet ((register (CronState.mk [("a", demoJob 0 7)]
          [demoJob 0 7] none 1) 3 "a" .ok 2 false).1).jobs k2
          ≠ some (demoJob 0 7)) :=
  register_duplicate_key_leaks_heap_entry _ 3 "a" .ok 2 (demoJob 0 7)
    (by decide) (by decide) (by decide)
    (fun k2 h => by
      by_cases hk : "a" = k2
      · exact hk.symm
      · simp only [objGet] at h
        rw [if_neg hk] at h
        cases h)

/-- Witness for C6 at a concrete one-job state with a stale timer. -/
theorem scheduleNextRun_timer_policy_witness :
    (scheduleNextRun (CronState.mk [] [demoJob 0 5] (some 99) 1) 2).timer
        = some (2 + max 0 (5 - 2)) ∧
      (0 : Int) ≤ max 0 (5 - 2) :=
  (scheduleNextRun_timer_policy
    (CronState.mk [] [demoJob 0 5] (some 99) 1) 2).2.2 (demoJob 0 5) rfl

/-- Claim C7: `unregister` of an unknown key changes nothing (registry, heap
and timer untouched, no failure); `unregister` of a registered key removes
the key from the registry, removes exactly that job object from the queue
(as a multiset, by identity), re-arms the timer, and a second `unregister`
of the same key has no observable effect. -/
theorem unregister_idempotent :
    (∀ st now k, objGet st.jobs k = none → unregister st now k = st) ∧
    (∀ st now k j, objGet st.jobs k = some j → j ∈ st.heap →
      (∀ x ∈ st.heap, x.id = j.id → x = j) →
      objGet (unregister st now k).jobs k = none ∧
      (∀ k2, k2 ≠ k →
        objGet (unregister st now k).jobs k2 = objGet st.jobs k2) ∧
      (unregister st now k).heap.Perm (st.heap.erase j) ∧
      (unregister st now k).timer = armTimer (unregister st now k).heap now ∧
      (∀ now2, unregister (unregister st now k) now2 k
        = unregister st now k)) := by
  refine ⟨fun st now k h => unregister_not_found st now k h, ?_⟩
  intro st now k j hreg hmem huniq
  have hres : unregister st now k
      = scheduleNextRun
        { st with jobs := objDelete st.jobs k,
                  heap := MinHeap.remove st.heap j } now := by
    unfold unregister
    rw [hreg]
  have hjobs : (unregister st now k).jobs = objDelete st.jobs k := by
    rw [hres]; rfl
  have hheap : (unregister st now k).heap = MinHeap.remove st.heap j := by
    rw [hres]; rfl
  have hfind : ∃ idx, st.heap.findIdx? (fun x => x.id == j.id) = some idx := by
    have hsome : (st.heap.findIdx? (fun x => x.id == j.id)).isSome := by
      rw [List.findIdx?_isSome]
      exact List.any_eq_true.mpr ⟨j, hmem, by simp⟩
    exact Option.isSome_iff_exists.mp hsome
  obtain ⟨idx, hidx⟩ := hfind
  obtain ⟨hlen, hat, hbefore⟩ := List.findIdx?_eq_some_iff_getElem.mp hidx
  have hat2 : st.heap.getD idx default = j := by
    have h1 : st.heap.getD idx default = st.heap[idx] := by
      simp [List.getD, List.getElem?_eq_getElem hlen]
    rw [h1]
    exact huniq _ (List.getElem_mem hlen) (by simpa using hat)
  have hperm : (MinHeap.remove st.heap j).Perm (st.heap.eraseIdx idx) :=
    MinHeap.remove_found_perm st.heap j idx hidx hlen
  have herase : st.heap.erase j = st.heap.eraseIdx idx := by
    refine erase_eq_eraseIdx_of_first st.heap j idx hlen hat2 ?_
    intro i hi hieq
    have hib : i < st.heap.length := by omega
    have := hbefore i hi
    rw [show st.heap.getD i default = st.heap[i] by
      simp [List.getD, List.getElem?_eq_getElem hib]] at hieq
    exact this (by simp [hieq])
  refine ⟨?_, ?_, ?_, ?_, ?_⟩
  · rw [hjobs]
    exact objGet_objDelete_self st.jobs k
  · intro k2 hk2
    rw [hjobs]
    exact objGet_objDelete_ne st.jobs k k2 hk2
  · rw [hheap, herase]
    exact hperm
  · rw [hres]; rfl
  · intro now2
    refine unregister_not_found _ now2 k ?_
    rw [hjobs]
    exact objGet_objDelete_self st.jobs k

/-- Witness for C7: both the unknown-key part (on the empty scheduler) and
the registered-key part (on a concrete one-job state). -/
theorem unregister_idempotent_witness :
    unregister emptyCron 0 "x" = emptyCron ∧
    objGet (unregister (CronState.mk [("a", demoJob 0 7)] [demoJob 0 7]
      (some 1) 1) 5 "a").jobs "a" = none :=
  ⟨unregister_idempotent.1 emptyCron 0 "x" rfl,
    (unregister_idempotent.2 (CronState.mk [("a", demoJob 0 7)]
      [demoJob 0 7] (some 1) 1) 5 "a"
      (demoJob 0 7) (by decide) (by decide) (by decide)).1⟩

/-- Claim C3: in a drain pass, a failing callback is caught at the point of
invocation and reported to the error log, the failing job is rescheduled
with `nextTrigger` = a fresh time read + its interval (strictly after the
captured drain-start time) and reinserted (it is present in the final heap),
the pass completes (no failure propagates out of `runDueJobs`), and the
wake timer is re-armed afterwards.  Assumes the spec's data-model invariant
(positive integer intervals) and a monotone clock. -/
theorem runDueJobs_error_isolation (st : CronState) (now : Int)
    (fresh : Nat → Int) (hint : ∀ j ∈ st.heap, 1 ≤ j.interval)
    (hM : ∀ i, now ≤ fresh i) :
    ∃ st1 runs errs, runDueJobs st now fresh = some (st1, runs, errs) ∧
      st1.timer = armTimer st1.heap now ∧
      st1.jobs = st.jobs ∧
      ∀ r ∈ runs,
        (r.failed = true → r.key ∈ errs) ∧
        r.newTrigger = fresh r.iter + r.interval ∧
        now < r.newTrigger ∧
        ∃ j1 ∈ st1.heap, j1.id = r.id ∧ j1.nextTrigger = r.newTrigger := by
  obtain ⟨hout, newRuns, newErrs, hrun, _, hprops, _⟩ :=
    drainLoop_spec now fresh hM (dueCount now st.heap) st.heap 0 [] []
      hint le_rfl
  rw [List.nil_append, List.nil_append] at hrun
  refine ⟨{ st with heap := hout, timer := armTimer hout now }, newRuns,
    newErrs, ?_, rfl, rfl, ?_⟩
  · unfold runDueJobs
    rw [hrun]
  · intro r hr
    obtain ⟨h1, _, h3, h4, j1, hj1mem, hj1⟩ := hprops r hr
    exact ⟨h4, h1, h3, j1, hj1mem, hj1.1, hj1.2.1⟩

/-- Witness for C3: a single due job whose callback throws. -/
theorem runDueJobs_error_isolation_witness :
    ∃ st1 runs errs,
      runDueJobs (CronState.mk [] [Job.mk 0 "f" 1 0 .throws] none 1) 0
        (fun _ => 0) = some (st1, runs, errs) ∧
      st1.timer = armTimer st1.heap 0 ∧
      st1.jobs = [] ∧
      ∀ r ∈ runs,
        (r.failed = true → r.key ∈ errs) ∧
        r.newTrigger = (fun _ : Nat => (0 : Int)) r.iter + r.interval ∧
        (0 : Int) < r.newTrigger ∧
        ∃ j1 ∈ st1.heap, j1.id = r.id ∧ j1.nextTrigger = r.newTrigger :=
  runDueJobs_error_isolation _ 0 (fun _ => 0) (by decide) (fun _ => le_refl 0)

/-- Claim C10: under positive integer intervals and a monotone clock, the
drain loop terminates with fuel `dueCount now heap` (each job extracted and
run at most once per pass — the number of runs is bounded by the number of
initially due jobs), and every reinserted job receives
`nextTrigger = fresh read + interval`, strictly greater than the captured
drain-start time. -/
theorem drain_loop_terminates (heap : List Job) (now : Int)
    (fresh : Nat → Int) (hint : ∀ j ∈ heap, 1 ≤ j.interval)
    (hM : ∀ i, now ≤ fresh i) (fuel : Nat)
    (hfuel : dueCount now heap ≤ fuel) :
    ∃ hout runs errs,
      drainLoop fuel now fresh 0 heap [] [] = some (hout, runs, errs) ∧
      runs.length ≤ dueCount now heap ∧
      ∀ r ∈ runs, r.newTrigger = fresh r.iter + r.interval ∧
        now < r.newTrigger := by
  obtain ⟨hout, newRuns, newErrs, hrun, hlen, hprops, _⟩ :=
    drainLoop_spec now fresh hM fuel heap 0 [] [] hint hfuel
  rw [List.nil_append, List.nil_append] at hrun
  exact ⟨hout, newRuns, newErrs, hrun, hlen,
    fun r hr => ⟨(hprops r hr).1, (hprops r hr).2.2.1⟩⟩

/-- Witness for C10: two due jobs, one of them failing, fuel exactly the due
count. -/
theorem drain_loop_terminates_witness :
    ∃ hout runs errs,
      drainLoop (dueCount 0 [Job.mk 0 "a" 1 0 .throws, Job.mk 1 "b" 2 0 .ok])
        0 (fun _ => 0) 0
        [Job.mk 0 "a" 1 0 .throws, Job.mk 1 "b" 2 0 .ok] [] []
        = some (hout, runs, errs) ∧
      runs.length ≤
        dueCount 0 [Job.mk 0 "a" 1 0 .throws, Job.mk 1 "b" 2 0 .ok] ∧
      ∀ r ∈ runs, r.newTrigger = (fun _ : Nat => (0 : Int)) r.iter
          + r.interval ∧ (0 : Int) < r.newTrigger :=
  drain_loop_terminates _ 0 (fun _ => 0) (by decide) (fun _ => le_refl 0) _
    le_rfl

/-- Claim C5: `register(k, cb, I)` at time `t0` sets the job's `nextTrigger`
to `t0 + I`; with a monotone (fake) clock, advancing time by `I - 1` seconds
fires no callback, and advancing by exactly `I` seconds fires the callback
exactly once (one run record, carrying the registered key). -/
theorem register_round_trip_scheduling (k : String) (cb : CbBeh) (I t0 : Int)
    (hI : 1 ≤ I) :
    (∃ j, objGet ((register emptyCron t0 k cb I false).1).jobs k = some j ∧
      j.nextTrigger = t0 + I) ∧
    (∀ fuel, advanceFuel fuel ((register emptyCron t0 k cb I false).1)
      (t0 + (I - 1)) = some ((register emptyCron t0 k cb I false).1, [])) ∧
    (∀ fuel, ∃ st2 runs,
      advanceFuel (fuel + 1) ((register emptyCron t0 k cb I false).1)
        (t0 + I) = some (st2, runs) ∧
      runs.map RunRec.key = [k] ∧
      ∃ j2 ∈ st2.heap, j2.nextTrigger = t0 + I + I) := by
  have hI0 : (0 : Int) ≤ I := by omega
  have ht : ((register emptyCron t0 k cb I false).1).timer = some (t0 + I) := by
    show some (t0 + max 0 (t0 + I - t0)) = some (t0 + I)
    rw [show t0 + I - t0 = I from by ring, max_eq_right hI0]
  have hh : ((register emptyCron t0 k cb I false).1).heap
      = [Job.mk 0 k I (t0 + I) cb] := rfl
  have htmr2 : armTimer [Job.mk 0 k I (t0 + I + I) cb] (t0 + I)
      = some (t0 + I + I) := by
    show some (t0 + I + max 0 (t0 + I + I - (t0 + I))) = some (t0 + I + I)
    rw [show t0 + I + I - (t0 + I) = I from by ring, max_eq_right hI0]
  have hdc : dueCount (t0 + I) ((register emptyCron t0 k cb I false).1).heap
      = 1 := by
    rw [hh]
    simp [dueCount]
  have hdl : ∃ errsE,
      drainLoop 1 (t0 + I) (fun _ => t0 + I) 0 [Job.mk 0 k I (t0 + I) cb]
        [] [] = some ([Job.mk 0 k I (t0 + I + I) cb],
          [RunRec.mk 0 k I 0 (t0 + I + I) (decide (cb ≠ CbBeh.ok))],
          errsE) := by
    cases cb with
    | ok =>
      refine ⟨[], ?_⟩
      unfold drainLoop
      rw [if_pos (⟨rfl, le_refl (t0 + I)⟩ :
        MinHeap.isEmpty [Job.mk 0 k I (t0 + I) CbBeh.ok] = false ∧
        ((MinHeap.peek [Job.mk 0 k I (t0 + I) CbBeh.ok]).getD
          default).nextTrigger ≤ t0 + I)]
      unfold drainLoop
      rw [if_neg]
      · exact rfl
      · intro hc
        have h2 : t0 + I + I ≤ t0 + I := hc.2
        omega
    | throws =>
      refine ⟨[k], ?_⟩
      unfold drainLoop
      rw [if_pos (⟨rfl, le_refl (t0 + I)⟩ :
        MinHeap.isEmpty [Job.mk 0 k I (t0 + I) CbBeh.throws] = false ∧
        ((MinHeap.peek [Job.mk 0 k I (t0 + I) CbBeh.throws]).getD
          default).nextTrigger ≤ t0 + I)]
      unfold drainLoop
      rw [if_neg]
      · exact rfl
      · intro hc
        have h2 : t0 + I + I ≤ t0 + I := hc.2
        omega
    | rejects =>
      refine ⟨[k], ?_⟩
      unfold drainLoop
      rw [if_pos (⟨rfl, le_refl (t0 + I)⟩ :
        MinHeap.isEmpty [Job.mk 0 k I (t0 + I) CbBeh.rejects] = false ∧
        ((MinHeap.peek [Job.mk 0 k I (t0 + I) CbBeh.rejects]).getD
          default).nextTrigger ≤ t0 + I)]
      unfold drainLoop
      rw [if_neg]
      · exact rfl
      · intro hc
        have h2 : t0 + I + I ≤ t0 + I := hc.2
        omega
  obtain ⟨errsE, hdleq⟩ := hdl
  have hrdj : runDueJobs ((register emptyCron t0 k cb I false).1) (t0 + I)
      (fun _ => t0 + I)
      = some (CronState.mk [(k, Job.mk 0 k I (t0 + I) cb)]
          [Job.mk 0 k I (t0 + I + I) cb] (some (t0 + I + I)) 1,
        [RunRec.mk 0 k I 0 (t0 + I + I) (decide (cb ≠ CbBeh.ok))],
        errsE) := by
    unfold runDueJobs
    rw [hdc, hh, hdleq]
    show some (CronState.mk _ _ (armTimer [Job.mk 0 k I (t0 + I + I) cb]
      (t0 + I)) _, _, _) = _
    rw [htmr2]
    exact rfl
  have hadv2 : ∀ fuel, advanceFuel fuel
      (CronState.mk [(k, Job.mk 0 k I (t0 + I) cb)]
        [Job.mk 0 k I (t0 + I + I) cb] (some (t0 + I + I)) 1) (t0 + I)
      = some (CronState.mk [(k, Job.mk 0 k I (t0 + I) cb)]
        [Job.mk 0 k I (t0 + I + I) cb] (some (t0 + I + I)) 1, []) := by
    intro fuel
    cases fuel with
    | zero =>
      show (if t0 + I + I ≤ t0 + I then none else some _) = _
      rw [if_neg (by omega)]
    | succ fuel =>
      show (if t0 + I + I ≤ t0 + I then _ else some _) = _
      rw [if_neg (by omega)]
  refine ⟨⟨Job.mk 0 k I (t0 + I) cb, ?_, rfl⟩, ?_, ?_⟩
  · exact objGet_objSet_self [] k _
  · intro fuel
    cases fuel with
    | zero =>
      simp only [advanceFuel]
      rw [ht]
      show (if t0 + I ≤ t0 + (I - 1) then none else some _) = _
      rw [if_neg (by omega)]
    | succ fuel =>
      simp only [advanceFuel]
      rw [ht]
      show (if t0 + I ≤ t0 + (I - 1) then _ else some _) = _
      rw [if_neg (by omega)]
  · intro fuel
    refine ⟨CronState.mk [(k, Job.mk 0 k I (t0 + I) cb)]
        [Job.mk 0 k I (t0 + I + I) cb] (some (t0 + I + I)) 1,
      [RunRec.mk 0 k I 0 (t0 + I + I) (decide (cb ≠ CbBeh.ok))], ?_, rfl,
      Job.mk 0 k I (t0 + I + I) cb, by simp, rfl⟩
    simp only [advanceFuel]
    rw [ht]
    show (if t0 + I ≤ t0 + I then _ else some _) = _
    rw [if_pos (le_refl (t0 + I))]
    simp only [hrdj, hadv2 fuel, List.append_nil]

/-- Witness for C5 at key "w", interval 5, registration time 100: the job is
stored with `nextTrigger` 105, advancing to 104 fires nothing, advancing to
105 fires exactly once. -/
theorem register_round_trip_scheduling_witness :
    (∃ j, objGet ((register emptyCron 100 "w" .ok 5 false).1).jobs "w"
        = some j ∧ j.nextTrigger = 100 + 5) ∧
    advanceFuel 3 ((register emptyCron 100 "w" .ok 5 false).1)
      (100 + (5 - 1)) = some ((register emptyCron 100 "w" .ok 5 false).1,
        []) ∧
    (∃ st2 runs,
      advanceFuel (2 + 1) ((register emptyCron 100 "w" .ok 5 false).1)
        (100 + 5) = some (st2, runs) ∧
      runs.map RunRec.key = ["w"] ∧
      ∃ j2 ∈ st2.heap, j2.nextTrigger = 100 + 5 + 5) :=
  ⟨(register_round_trip_scheduling "w" .ok 5 100 (by decide)).1,
    (register_round_trip_scheduling "w" .ok 5 100 (by decide)).2.1 3,
    (register_round_trip_scheduling "w" .ok 5 100 (by decide)).2.2 2⟩
